import Mathlib

/-!
Shallow embedding of the ewgpal palette-generation script (NerdNu/ewgpal,
src/ewgpal.py) and proofs about its loading, extraction, layout and
rendering pipeline.

Conventions of the embedding:
* Python dicts are association lists `List (String × α)`; `defaultdict`
  semantics are embedded by the explicit insert/append helpers below.
* Python `sorted` on string keys is embedded by an insertion sort over
  the `String` linear order (lexicographic by code point, as in Python);
  any correct sort of a duplicate-free string list yields the same list.
* Machine integers are `Nat`; the true divisions performed by the script
  (PEP 238 division imported via `from future import division`) are
  embedded as exact rational arithmetic on `ℚ`.  Every such division in
  the script is by 2 or by 1000 of integer operands far from the decision
  boundaries involved, so exact rationals and IEEE doubles agree there.
* A Python run that raises an uncaught exception is a `PyError` value.
* Console and file output is pure data: the stderr diagnostics are a
  `List String`, the saved image is the computed `Layout` plus the list
  of draw calls issued to PIL.
-/

/-- Embeds `colorCode` (ewgpal.py line 78): prefix a color code with the
hash character unless it already starts with one.  The Python test
`hex.startswith('#')` is embedded as a test on the first character. -/
def startswithHash (s : String) : Bool :=
  match s.data with
  | [] => false
  | c :: _ => c = '#'

/-- Embeds `colorCode` (ewgpal.py lines 78-83). -/
def colorCode (hex : String) : String :=
  if startswithHash hex then hex else "#" ++ hex

/-- Embeds `contrastingColor` (ewgpal.py lines 88-94).  The script computes
`(rgb[0]*299 + rgb[1]*587 + rgb[2]*114) / 1000` in float arithmetic and
compares it with 123; the quotient is embedded exactly on `ℚ`.  (For
integer components bounded by 255 the float value is within 3e-14 of the
exact quotient while any integer sum other than 123000 keeps the exact
quotient at distance at least 1/1000 from 123, and 123000/1000 is the
exact double 123.0, so the float comparison and the rational comparison
agree on all inputs.) -/
def contrastingColor (rgb : Nat × Nat × Nat) : String :=
  if ((rgb.1 * 299 + rgb.2.1 * 587 + rgb.2.2 * 114 : ℚ) / 1000) < 123 then "#ffffff"
  else "#000000"

/-- Value of a hexadecimal digit character, `none` on other characters. -/
def hexVal (c : Char) : Option Nat :=
  if '0' ≤ c ∧ c ≤ '9' then some (c.toNat - Char.toNat '0')
  else if 'a' ≤ c ∧ c ≤ 'f' then some (10 + c.toNat - Char.toNat 'a')
  else if 'A' ≤ c ∧ c ≤ 'F' then some (10 + c.toNat - Char.toNat 'A')
  else none

/-- Embeds `PIL.ImageColor.getrgb` on the inputs this program feeds it:
a string of the shape hash + six hex digits resolves to its RGB triple,
anything else raises `ValueError` (embedded as `none`).  The PIL parser
accepts further color syntaxes (named colors, rgb functions, three-digit
codes); the configs this tool reads declare six-digit codes only, and no
claim depends on the extra syntaxes. -/
def getrgb (s : String) : Option (Nat × Nat × Nat) :=
  match s.data with
  | ['#', h1, h2, h3, h4, h5, h6] =>
    match hexVal h1, hexVal h2, hexVal h3, hexVal h4, hexVal h5, hexVal h6 with
    | some a, some b, some c, some d, some e, some f =>
      some (16 * a + b, (16 * c + d, 16 * e + f))
    | _, _, _, _, _, _ => none
  | _ => none

/-- Decides whether a string matches the pattern hash + six hex digits,
that is the regular expression written in the specification as a hash
followed by exactly six characters of the class 0-9A-Fa-f. -/
def matchesHashHex6 (s : String) : Bool :=
  match s.data with
  | [c0, h1, h2, h3, h4, h5, h6] =>
    (c0 = '#') && (hexVal h1).isSome && (hexVal h2).isSome && (hexVal h3).isSome &&
    (hexVal h4).isSome && (hexVal h5).isSome && (hexVal h6).isSome
  | _ => false

/-- Decides whether a string is a bare six-hex-digit color code. -/
def matchesHex6 (s : String) : Bool :=
  match s.data with
  | [h1, h2, h3, h4, h5, h6] =>
    (hexVal h1).isSome && (hexVal h2).isSome && (hexVal h3).isSome &&
    (hexVal h4).isSome && (hexVal h5).isSome && (hexVal h6).isSome
  | _ => false

/-- A biome record as parsed from one JSON config file.  A JSON object may
lack any of the keys the script reads, so each field is optional; reading
an absent key with Python bracket indexing raises `KeyError`. -/
structure Biome where
  enabled : Option Bool
  biomeType : Option String
  biomeColors : Option (List String)
deriving DecidableEq

/-- Result of parsing one config file: either a JSON syntax error (with
the line, column and message carried by `JSONDecodeError`) or a record. -/
inductive FileContent where
  | malformed (lineno colno : Nat) (msg : String)
  | record (biome : Biome)
deriving DecidableEq

/-- An uncaught Python exception terminating the run. -/
inductive PyError where
  | keyError (key : String)
  | valueErrorMaxEmpty
  | valueErrorColor (spec : String)
  | indexError
deriving DecidableEq

/-- First-match lookup in an association list, as in a Python dict. -/
def lookupAssoc (k : String) : List (String × α) → Option α
  | [] => none
  | (k1, v) :: rest => if k1 = k then some v else lookupAssoc k rest

/-- Dict assignment `m[k] = v`: replace the value at an existing key in
place, or append a new key at the end. -/
def insertAssoc (k : String) (v : α) : List (String × α) → List (String × α)
  | [] => [(k, v)]
  | (k1, v1) :: rest =>
    if k1 = k then (k1, v) :: rest else (k1, v1) :: insertAssoc k v rest

/-- Boolean lexicographic comparison of character lists (by code point,
as Python compares strings).  Stated on `Bool` so that it evaluates by
kernel reduction; `charListLeB_iff_not_lex` below ties it to the
mathematical order. -/
def charListLeB : List Char → List Char → Bool
  | [], _ => true
  | _ :: _, [] => false
  | a :: as, b :: bs =>
    if a < b then true
    else if b < a then false
    else charListLeB as bs

/-- Boolean string comparison agreeing with the lexicographic order on
strings (`strLeB_iff`). -/
def strLeB (a b : String) : Bool := charListLeB a.data b.data

/-- Insertion step of an insertion sort on strings. -/
def insertSortedStr (x : String) : List String → List String
  | [] => [x]
  | y :: ys => if strLeB x y then x :: y :: ys else y :: insertSortedStr x ys

/-- Embeds the Python builtin `sorted` on a list of strings (lexicographic
by code point).  Python uses a stable sort; on lists of strings every
correct sort returns the same list, since equal elements are equal
strings, so the choice of sorting algorithm is immaterial. -/
def sortStrings (l : List String) : List String :=
  List.foldr insertSortedStr [] l

/-- Iteration `for k in sorted(m): use m[k]` over an embedded dict:
the key-value pairs of `m` visited in sorted key order. -/
def sortedAssoc (m : List (String × α)) : List (String × α) :=
  (sortStrings (m.map Prod.fst)).filterMap fun k => (lookupAssoc k m).map fun v => (k, v)

/-- Embeds `os.path.basename`: the part of a path after the last slash. -/
def basenameStr (p : String) : String :=
  ⟨(p.data.reverse.takeWhile fun c => c ≠ '/').reverse⟩

/-- Embeds the root component of `os.path.splitext` on a slash-free file
name: split at the last dot, provided at least one character before that
dot is not itself a dot (so purely dotted prefixes such as hidden-file
names are not split). -/
def splitextRootStr (s : String) : String :=
  let rev := s.data.reverse
  let ext := rev.takeWhile fun c => c ≠ '.'
  if ext.length = rev.length then s
  else
    let root := rev.drop (ext.length + 1)
    if root.any fun c => c ≠ '.' then ⟨root.reverse⟩ else s

/-- Embeds `os.path.splitext(os.path.basename(path))[0]` (ewgpal.py
line 142), the base name keying each loaded biome. -/
def baseNameOf (p : String) : String :=
  splitextRootStr (basenameStr p)

/-- The grouping built by the loading loop: `biomeType` to base name to
biome record (`biomesByType`, ewgpal.py line 139). -/
abbrev ByTypeMap : Type := List (String × List (String × Biome))

/-- The diagnostic printed for a file that fails JSON parsing (ewgpal.py
line 149). -/
def jsonErrorMsg (fileName : String) (lineno colno : Nat) (msg : String) : String :=
  "JSON error: " ++ fileName ++ ": line " ++ toString lineno ++ ", column " ++
    toString colno ++ ": " ++ msg

/-- Embeds `defaultdict(dict)` assignment
`biomesByType[biomeType][baseName] = biome` (ewgpal.py line 147). -/
def insertBiome (t name : String) (b : Biome) : ByTypeMap → ByTypeMap
  | [] => [(t, [(name, b)])]
  | (t1, inner) :: rest =>
    if t1 = t then (t1, insertAssoc name b inner) :: rest
    else (t1, inner) :: insertBiome t name b rest

/-- Embeds the config loading loop (ewgpal.py lines 139-149) from a given
intermediate state.  Each input pair is a file path together with its
parse outcome.  A JSON syntax error appends one diagnostic and skips the
file; a parsed record is probed for `enabled` (line 145) and then indexed
by `biomeType` (line 147), either lookup raising an uncaught `KeyError`
that aborts the loop with the diagnostics printed so far; otherwise the
record is stored under its type and base name. -/
def loadFrom (diags : List String) (byType : ByTypeMap) :
    List (String × FileContent) → Except (List String × PyError) (List String × ByTypeMap)
  | [] => .ok (diags, byType)
  | (fileName, .malformed l c m) :: rest =>
    loadFrom (diags ++ [jsonErrorMsg fileName l c m]) byType rest
  | (fileName, .record b) :: rest =>
    match b.enabled with
    | none => .error (diags, .keyError "enabled")
    | some _ =>
      match b.biomeType with
      | none => .error (diags, .keyError "biomeType")
      | some t => loadFrom diags (insertBiome t (baseNameOf fileName) b byType) rest

/-- The whole loading phase, from the empty grouping. -/
def loadAll (files : List (String × FileContent)) :
    Except (List String × PyError) (List String × ByTypeMap) :=
  loadFrom [] [] files

/-- One color swatch: the pair stored by the extraction loop (ewgpal.py
line 157). -/
structure Patch where
  biomeName : String
  biomeColor : String
deriving DecidableEq

/-- The extraction accumulator: `biomePatches`, a `defaultdict(list)`
from biome type to its patch list. -/
abbrev PatchMap : Type := List (String × List Patch)

/-- Embeds `biomePatches[biomeType].append(p)` on a `defaultdict(list)`:
append to the list of an existing key, or materialize the key at the end
with a one-element list. -/
def appendPatch (t : String) (p : Patch) : PatchMap → PatchMap
  | [] => [(t, [p])]
  | (t1, ps) :: rest =>
    if t1 = t then (t1, ps ++ [p]) :: rest else (t1, ps) :: appendPatch t p rest

/-- Embeds the innermost extraction loop (ewgpal.py lines 156-157): every
color of one biome appended as a patch for type `t`. -/
def extractColors (t name : String) (colors : List String) (acc : PatchMap) : PatchMap :=
  colors.foldl (fun acc c => appendPatch t ⟨name, colorCode c⟩ acc) acc

/-- Extraction step for one biome of type `t`: reading
`biome['biomeColors']` raises `KeyError` when the key is absent. -/
def extractBiome (t : String) (acc : PatchMap) (entry : String × Biome) :
    Except PyError PatchMap :=
  match entry.2.biomeColors with
  | none => .error (.keyError "biomeColors")
  | some colors => .ok (extractColors t entry.1 colors acc)

/-- Extraction step for one biome type (ewgpal.py lines 154-157): its
biomes visited in sorted name order. -/
def extractType (acc : PatchMap) (entry : String × List (String × Biome)) :
    Except PyError PatchMap :=
  (sortedAssoc entry.2).foldlM (extractBiome entry.1) acc

/-- Embeds the patch extraction loop (ewgpal.py lines 152-157): biome
types visited in sorted order, and inside each type its biomes in sorted
name order, each color appended in source order. -/
def extractPatches (byType : ByTypeMap) : Except PyError PatchMap :=
  (sortedAssoc byType).foldlM extractType []

/-- The patches contributed by one biome, in source color order
(specification 4.2: a patch per entry of the biomeColors list, each color
normalized). -/
def patchesOfBiome (name : String) (b : Biome) : List Patch :=
  (b.biomeColors.getD []).map fun c => ⟨name, colorCode c⟩

/-- The patch list of one biome type as the specification describes it
(4.2): the concatenation over its biome names in lexicographic order of
each biome's normalized colors in source order. -/
def typePatchesSpec (inner : List (String × Biome)) : List Patch :=
  (sortedAssoc inner).flatMap fun nb => patchesOfBiome nb.1 nb.2

/-- The whole extraction output as the specification describes it: biome
types in lexicographic order, each with its concatenated patch list, a
type with no patches at all receiving no entry. -/
def extractPatchesSpec (byType : ByTypeMap) : PatchMap :=
  (sortedAssoc byType).filterMap fun e =>
    let ps := typePatchesSpec e.2
    if ps.isEmpty then none else some (e.1, ps)

/-- Embeds the Python builtin `max` over a list of naturals: `none` on the
empty list, where Python raises
`ValueError: max() arg is an empty sequence`. -/
def maxList : List Nat → Option Nat
  | [] => none
  | x :: xs => some (xs.foldl max x)

/-- The grid layout and canvas dimensions computed by ewgpal.py
lines 169-202. -/
structure Layout where
  maxPatches : Nat
  wrapColumns : Nat
  biomeTypeRows : List (String × Nat)
  rows : Nat
  columns : Nat
  patchPadding : Nat
  firstColumnWidth : Nat
  patchWidth : Nat
  patchHeight : Nat
  imageWidth : Nat
  imageHeight : Nat
deriving DecidableEq

/-- Embeds the row-wrapping loop (ewgpal.py lines 173-178): per type,
`wrappedRows = (wrapColumns - 1 + len(patches)) // wrapColumns`, recorded
in a dict and summed.  The script iterates the dict in unspecified hash
order; both the recorded association list and the sum are independent of
that order, and the entry order used here is the construction order of
`biomePatches`. -/
def computeRows (wrapColumns : Nat) : PatchMap → List (String × Nat) × Nat
  | [] => ([], 0)
  | (t, ps) :: rest =>
    let wrappedRows := (wrapColumns - 1 + ps.length) / wrapColumns
    let tailResult := computeRows wrapColumns rest
    ((t, wrappedRows) :: tailResult.1, wrappedRows + tailResult.2)

/-- The number of text rows reserved inside a patch (`patchTextRows`,
ewgpal.py line 191). -/
def patchTextRows : Nat := 7

/-- Embeds the layout computation (ewgpal.py lines 171-202) given the
value of `wrapColumns`, the already computed `maxPatches`, and the text
measuring capability `fontGetsize` standing for `font.getsize` of the
fixed 16-point font: width and height in pixels of a rendered string.
In the script `wrapColumns = 3 * int(ceil(pow(maxPatches, 1/3.0)))` in
float arithmetic; it enters here as a parameter, and every claim proved
below either holds for all of its values or treats it abstractly. -/
def planLayout (fontGetsize : String → Nat × Nat) (wrapColumns maxPatches : Nat)
    (bps : PatchMap) : Layout :=
  let rowsResult := computeRows wrapColumns bps
  let columns := min maxPatches wrapColumns
  let patchPadding := (fontGetsize "   ").1
  let firstColumnWidth :=
    2 * patchPadding + (maxList (bps.map fun e => (fontGetsize e.1).1)).getD 0
  let sizes := bps.foldl
    (fun acc e => e.2.foldl
      (fun acc p =>
        let textSize := fontGetsize p.biomeName
        (max (textSize.1 + 2 * patchPadding) acc.1,
         max (patchTextRows * textSize.2 + 2 * patchPadding) acc.2))
      acc)
    (0, 0)
  { maxPatches := maxPatches
    wrapColumns := wrapColumns
    biomeTypeRows := rowsResult.1
    rows := rowsResult.2
    columns := columns
    patchPadding := patchPadding
    firstColumnWidth := firstColumnWidth
    patchWidth := sizes.1
    patchHeight := sizes.2
    imageWidth := 1 + firstColumnWidth + sizes.1 * columns
    imageHeight := 1 + sizes.2 * rowsResult.2 }

/-- A fill argument passed to `draw.rectangle`: either a color string or
an RGB triple. -/
inductive Fill where
  | named (s : String)
  | rgb (r g b : Nat)
deriving DecidableEq

/-- A drawing call issued to PIL.  The script computes text positions
with Python 3 true division (imported by `from future division`), so
coordinates are rationals; every division involved is by 2, hence exact
in floats as well. -/
inductive DrawOp where
  | rect (x0 y0 x1 y1 : ℚ) (fill : Fill) (outline : String)
  | text (x y : ℚ) (content : String) (fill : String)
deriving DecidableEq

/-- Embeds the three-line text loop inside one patch (ewgpal.py
lines 239-243): each line centered horizontally, the vertical cursor
advancing by the line height plus the gap. -/
def drawTextLines (fontGetsize : String → Nat × Nat) (xBase : ℚ) (patchWidth : Nat)
    (textColor : String) (lineGap : ℚ) : List String → ℚ → List DrawOp
  | [], _ => []
  | line :: rest, textY =>
    let lineW := (fontGetsize line).1
    let lineH := (fontGetsize line).2
    DrawOp.text (xBase + ((patchWidth : ℚ) - (lineW : ℚ)) / 2) textY line textColor ::
      drawTextLines fontGetsize xBase patchWidth textColor lineGap rest
        (textY + (lineH : ℚ) + lineGap)

/-- Embeds the drawing of one patch (ewgpal.py lines 223-243): resolve
the color (raising `ValueError` on an unresolvable code), draw the
filled outlined cell, then three centered text lines (biome name, color
code, decimal RGB triple) in the contrasting text color. -/
def renderPatch (fontGetsize : String → Nat × Nat) (L : Layout) (row c : Nat)
    (p : Patch) : Except PyError (List DrawOp) :=
  match getrgb p.biomeColor with
  | none => .error (.valueErrorColor p.biomeColor)
  | some rgb =>
    let colorName := p.biomeColor
    let rectOp := DrawOp.rect ((L.firstColumnWidth + c * L.patchWidth : Nat) : ℚ)
      ((row * L.patchHeight : Nat) : ℚ)
      ((L.firstColumnWidth + (c + 1) * L.patchWidth : Nat) : ℚ)
      (((row + 1) * L.patchHeight : Nat) : ℚ)
      (Fill.rgb rgb.1 rgb.2.1 rgb.2.2) "#000000"
    let lines := [p.biomeName, colorName,
      toString rgb.1 ++ "  " ++ toString rgb.2.1 ++ "  " ++ toString rgb.2.2]
    let line0Height : ℚ := ((fontGetsize p.biomeName).2 : ℚ)
    let lineGap := line0Height / 2
    let totalTextHeight := 3 * line0Height + 2 * lineGap
    let textY := ((row * L.patchHeight : Nat) : ℚ) +
      (((L.patchHeight : Nat) : ℚ) - totalTextHeight) / 2
    let xBase : ℚ := ((L.firstColumnWidth + c % L.columns * L.patchWidth : Nat) : ℚ)
    .ok (rectOp ::
      drawTextLines fontGetsize xBase L.patchWidth (contrastingColor rgb) lineGap lines textY)

/-- Embeds the inner column loop of one wrapped row (ewgpal.py
lines 218-243): columns are filled left to right until the patch index
reaches the end of the list, where the loop breaks. -/
def renderRowPatches (fontGetsize : String → Nat × Nat) (L : Layout)
    (patches : List Patch) (r row : Nat) : Except PyError (List DrawOp) :=
  ((List.range L.columns).takeWhile fun c => r * L.columns + c < patches.length).foldlM
    (fun acc c =>
      match patches.get? (r * L.columns + c) with
      | none => .error .indexError
      | some p => do
        let ops ← renderPatch fontGetsize L row c p
        .ok (acc ++ ops))
    []

/-- Embeds the label cell of one wrapped row (ewgpal.py lines 213-215):
a background rectangle in the first column and the centered type name in
white. -/
def renderLabel (fontGetsize : String → Nat × Nat) (L : Layout) (t : String)
    (row : Nat) : List DrawOp :=
  let textSize := fontGetsize t
  [DrawOp.rect 0 ((row * L.patchHeight : Nat) : ℚ) ((L.firstColumnWidth : Nat) : ℚ)
    (((row + 1) * L.patchHeight : Nat) : ℚ) (Fill.named "#404040") "#000000",
   DrawOp.text ((((L.firstColumnWidth : Nat) : ℚ) - (textSize.1 : ℚ)) / 2)
     (((row * L.patchHeight : Nat) : ℚ) + (((L.patchHeight : Nat) : ℚ) - (textSize.2 : ℚ)) / 2)
     t "#ffffff"]

/-- Embeds the wrapped-row loop of one biome type (ewgpal.py
lines 211-245): each wrapped row draws its own label cell and then its
patches, the global row counter advancing once per wrapped row. -/
def renderType (fontGetsize : String → Nat × Nat) (L : Layout) (t : String)
    (patches : List Patch) (typeRows row0 : Nat) : Except PyError (List DrawOp) :=
  (List.range typeRows).foldlM
    (fun acc r => do
      let patchOps ← renderRowPatches fontGetsize L patches r (row0 + r)
      .ok (acc ++ renderLabel fontGetsize L t (row0 + r) ++ patchOps))
    []

/-- Embeds the rendering loop (ewgpal.py lines 207-245): biome types in
sorted order, the per-type wrapped row count read from `biomeTypeRows`
(an absent key would raise `KeyError`, though the loop only queries keys
the layout pass recorded). -/
def renderImage (fontGetsize : String → Nat × Nat) (L : Layout) (bps : PatchMap) :
    Except PyError (List DrawOp) := do
  let result ← (sortedAssoc bps).foldlM
    (fun (acc : List DrawOp × Nat) e => do
      match lookupAssoc e.1 L.biomeTypeRows with
      | none => Except.error (.keyError e.1)
      | some typeRows => do
        let ops ← renderType fontGetsize L e.1 e.2 typeRows acc.2
        Except.ok (acc.1 ++ ops, acc.2 + typeRows))
    ([], 0)
  .ok result.1

instance {ε α : Type} [DecidableEq ε] [DecidableEq α] : DecidableEq (Except ε α) := fun a b =>
  match a, b with
  | .error e1, .error e2 =>
    if h : e1 = e2 then isTrue (congrArg Except.error h)
    else isFalse fun hh => h (Except.error.inj hh)
  | .error _, .ok _ => isFalse fun hh => Except.noConfusion hh
  | .ok _, .error _ => isFalse fun hh => Except.noConfusion hh
  | .ok v1, .ok v2 =>
    if h : v1 = v2 then isTrue (congrArg Except.ok h)
    else isFalse fun hh => h (Except.ok.inj hh)

/-- A possibly-absent association entry: the list entry that a run of
appends for key `t` leaves behind, empty when nothing was appended.
Helper for relating the `defaultdict` append loop to its direct
description. -/
def optEntry (t : String) (ps : List Patch) : PatchMap :=
  if ps.isEmpty then [] else [(t, ps)]

/-- Decides whether a string is a color code of the shape the
specification admits as input (section 6): six hex digits, optionally
already prefixed with a hash. -/
def validColorStr (s : String) : Bool :=
  matchesHex6 s || matchesHashHex6 s

/-- Two parsed records that agree on everything the pipeline can observe
except the value of their `enabled` flag, which both carry. -/
def BiomeAgree (b1 b2 : Biome) : Prop :=
  b1.biomeType = b2.biomeType ∧ b1.biomeColors = b2.biomeColors ∧
    b1.enabled.isSome = true ∧ b2.enabled.isSome = true

/-- Two parse outcomes that differ at most in the `enabled` value of a
record. -/
def ContentAgree : FileContent → FileContent → Prop
  | .malformed l1 c1 m1, .malformed l2 c2 m2 => l1 = l2 ∧ c1 = c2 ∧ m1 = m2
  | .record b1, .record b2 => BiomeAgree b1 b2
  | _, _ => False

/-- Two input file lists that differ at most in the `enabled` values of
some of their records. -/
def FilesAgree (fs1 fs2 : List (String × FileContent)) : Prop :=
  List.Forall₂ (fun a b => a.1 = b.1 ∧ ContentAgree a.2 b.2) fs1 fs2

/-- Inner grouping maps related pointwise by `BiomeAgree`. -/
def InnerAgree : List (String × Biome) → List (String × Biome) → Prop :=
  List.Forall₂ fun a b => a.1 = b.1 ∧ BiomeAgree a.2 b.2

/-- Groupings related pointwise by `InnerAgree`. -/
def ByTypeAgree : ByTypeMap → ByTypeMap → Prop :=
  List.Forall₂ fun a b => a.1 = b.1 ∧ InnerAgree a.2 b.2

/-- Load results related: equal diagnostics and error, or equal
diagnostics and related groupings. -/
def LoadResultAgree :
    Except (List String × PyError) (List String × ByTypeMap) →
    Except (List String × PyError) (List String × ByTypeMap) → Prop
  | .error e1, .error e2 => e1 = e2
  | .ok (d1, m1), .ok (d2, m2) => d1 = d2 ∧ ByTypeAgree m1 m2
  | _, _ => False

/-- Options related by a relation on their contents. -/
def OptionAgree (R : α → β → Prop) : Option α → Option β → Prop
  | none, none => True
  | some v1, some v2 => R v1 v2
  | _, _ => False

/-- A deterministic text measure used to instantiate theorems at concrete
inputs: a fixed-width font of advance 8 and line height 16. -/
def exGetsize (s : String) : Nat × Nat := (8 * s.data.length, 16)

/-- A concrete stand-in for the wrap-column heuristic used to instantiate
theorems at concrete inputs. -/
def exWrap (m : Nat) : Nat := 3 * m

/-- Concrete record: enabled, typed LAND, one bare color. -/
def exForest : Biome := ⟨some true, some "LAND", some ["102030"]⟩

/-- Concrete record: disabled, typed LAND, one prefixed color. -/
def exForestHills : Biome := ⟨some false, some "LAND", some ["#405060"]⟩

/-- Concrete record: enabled, typed ARID, three colors. -/
def exDesert : Biome := ⟨some true, some "ARID", some ["a0b0c0", "#d0e0f0", "ffffff"]⟩

/-- Concrete record lacking the `biomeType` key. -/
def exNoType : Biome := ⟨some true, none, some ["112233"]⟩

/-- Concrete record lacking the `enabled` key. -/
def exNoEnabled : Biome := ⟨none, some "LAND", some ["112233"]⟩

/-- Concrete record whose color list holds a malformed code. -/
def exBadColor : Biome := ⟨some true, some "LAND", some ["zzz"]⟩

/-- A concrete three-file input set. -/
def exFiles : List (String × FileContent) :=
  [("/w/settings/biomes/land/Forest.json", .record exForest),
   ("/w/settings/biomes/land/Forest_Hills.json", .record exForestHills),
   ("/w/settings/biomes/arid/Desert.json", .record exDesert)]

/-- `exFiles` with one `enabled` flag toggled. -/
def exFilesToggled : List (String × FileContent) :=
  [("/w/settings/biomes/land/Forest.json", .record ⟨some false, some "LAND", some ["102030"]⟩),
   ("/w/settings/biomes/land/Forest_Hills.json", .record exForestHills),
   ("/w/settings/biomes/arid/Desert.json", .record exDesert)]

/-- A concrete input whose first record lacks `biomeType` while a later
well-formed record follows. -/
def exFilesNoType : List (String × FileContent) :=
  [("/w/settings/biomes/x/alpha.json", .record exNoType),
   ("/w/settings/biomes/x/beta.json", .record exForest)]

/-- The grouping the loader builds from `exFiles`. -/
def exByType : ByTypeMap :=
  [("LAND", [("Forest", exForest), ("Forest_Hills", exForestHills)]),
   ("ARID", [("Desert", exDesert)])]

/-- The patch map the extractor builds from `exByType`. -/
def exBps : PatchMap :=
  [("ARID", [⟨"Desert", "#a0b0c0"⟩, ⟨"Desert", "#d0e0f0"⟩, ⟨"Desert", "#ffffff"⟩]),
   ("LAND", [⟨"Forest", "#102030"⟩, ⟨"Forest_Hills", "#405060"⟩])]

/-- The observable outcome of one run: the stderr diagnostics, and either
an uncaught exception or the computed layout together with the sequence
of drawing calls that produced the saved image. -/
structure RunOutput where
  diags : List String
  result : Except PyError (Layout × List DrawOp)
deriving DecidableEq

/-- The pipeline of ewgpal.py after loading: extract patches
(lines 152-157), take the maximum patch count (line 169, raising
`ValueError` when no type has any patch), lay out the grid and canvas
(lines 171-202, with `wrapColumns` supplied by the `wrapFn` parameter
standing for the float cube-root heuristic of line 172), and render
(lines 207-245). -/
def pipelineAfterLoad (fontGetsize : String → Nat × Nat) (wrapFn : Nat → Nat)
    (diags : List String) (byType : ByTypeMap) : RunOutput :=
  match extractPatches byType with
  | .error e => ⟨diags, .error e⟩
  | .ok bps =>
    match maxList (bps.map fun e => e.2.length) with
    | none => ⟨diags, .error .valueErrorMaxEmpty⟩
    | some maxPatches =>
      let L := planLayout fontGetsize (wrapFn maxPatches) maxPatches bps
      match renderImage fontGetsize L bps with
      | .error e => ⟨diags, .error e⟩
      | .ok ops => ⟨diags, .ok (L, ops)⟩

/-- Embeds the whole pipeline of ewgpal.py after argument parsing: load
and group the config files (lines 139-149), then the rest of the run. -/
def runPipeline (fontGetsize : String → Nat × Nat) (wrapFn : Nat → Nat)
    (files : List (String × FileContent)) : RunOutput :=
  match loadAll files with
  | .error (diags, e) => ⟨diags, .error e⟩
  | .ok (diags, byType) => pipelineAfterLoad fontGetsize wrapFn diags byType




/-! ## Order bridge and sorting lemmas -/

theorem charListLeB_iff_not_lex :
    ∀ as bs : List Char, charListLeB as bs = true ↔ ¬ List.Lex (· < ·) bs as
  | [], bs => by
    rw [charListLeB]
    exact iff_of_true rfl (List.Lex.not_nil_right _ _)
  | a :: as, [] => by
    rw [charListLeB]
    exact iff_of_false (by simp) fun h => h List.Lex.nil
  | a :: as, b :: bs => by
    rw [charListLeB]
    rcases lt_trichotomy a b with h | h | h
    · rw [if_pos h]
      refine iff_of_true rfl fun hlex => ?_
      cases hlex with
      | rel h2 => exact absurd h2 (asymm h)
      | cons h2 => exact absurd h (lt_irrefl _)
    · subst h
      rw [if_neg (lt_irrefl a), if_neg (lt_irrefl a)]
      rw [charListLeB_iff_not_lex as bs]
      constructor
      · intro h2 hlex
        cases hlex with
        | rel h3 => exact absurd h3 (lt_irrefl _)
        | cons h3 => exact h2 h3
      · intro h2 h3
        exact h2 (List.Lex.cons h3)
    · rw [if_neg (asymm h), if_pos h]
      exact iff_of_false (by simp) fun hcon => hcon (List.Lex.rel h)

theorem strLeB_iff (a b : String) : strLeB a b = true ↔ a ≤ b := by
  rw [strLeB, charListLeB_iff_not_lex]
  exact not_congr (Iff.symm String.lt_iff_toList_lt)

theorem strLeB_of_le {a b : String} (h : a ≤ b) : strLeB a b = true :=
  (strLeB_iff a b).mpr h

theorem le_of_strLeB {a b : String} (h : strLeB a b = true) : a ≤ b :=
  (strLeB_iff a b).mp h

theorem le_of_strLeB_not {a b : String} (h : ¬ strLeB a b = true) : b ≤ a := by
  rcases le_total a b with h2 | h2
  · exact absurd (strLeB_of_le h2) h
  · exact h2

theorem insertSortedStr_perm (x : String) :
    ∀ l : List String, List.Perm (insertSortedStr x l) (x :: l)
  | [] => List.Perm.refl _
  | y :: ys => by
    rw [insertSortedStr]
    by_cases h : strLeB x y = true
    · rw [if_pos h]
    · rw [if_neg h]
      exact ((insertSortedStr_perm x ys).cons y).trans (List.Perm.swap x y ys)

theorem sortStrings_perm : ∀ l : List String, List.Perm (sortStrings l) l
  | [] => List.Perm.refl _
  | x :: xs => by
    rw [sortStrings, List.foldr_cons]
    exact (insertSortedStr_perm x (List.foldr insertSortedStr [] xs)).trans
      ((sortStrings_perm xs).cons x)

theorem mem_sortStrings {x : String} {l : List String} : x ∈ sortStrings l ↔ x ∈ l :=
  (sortStrings_perm l).mem_iff

theorem insertSortedStr_sorted (x : String) :
    ∀ l : List String, l.Sorted (· ≤ ·) → (insertSortedStr x l).Sorted (· ≤ ·)
  | [], _ => List.sorted_singleton x
  | y :: ys, h => by
    rw [insertSortedStr]
    by_cases hxy : strLeB x y = true
    · rw [if_pos hxy]
      refine List.Pairwise.cons (fun z hz => ?_) h
      rcases List.mem_cons.mp hz with rfl | hz
      · exact le_of_strLeB hxy
      · exact le_trans (le_of_strLeB hxy) (List.rel_of_sorted_cons h z hz)
    · rw [if_neg hxy]
      have hyx : y ≤ x := le_of_strLeB_not hxy
      refine List.Pairwise.cons (fun z hz => ?_) (insertSortedStr_sorted x ys h.of_cons)
      rcases List.mem_cons.mp ((insertSortedStr_perm x ys).mem_iff.mp hz) with rfl | hz
      · exact hyx
      · exact List.rel_of_sorted_cons h z hz

theorem sortStrings_sorted : ∀ l : List String, (sortStrings l).Sorted (· ≤ ·)
  | [] => List.sorted_nil
  | x :: xs => by
    rw [sortStrings, List.foldr_cons]
    exact insertSortedStr_sorted x _ (sortStrings_sorted xs)

theorem sortStrings_nodup {l : List String} (h : l.Nodup) : (sortStrings l).Nodup :=
  (sortStrings_perm l).nodup_iff.mpr h

theorem sortStrings_pairwise_lt {l : List String} (h : l.Nodup) :
    (sortStrings l).Pairwise (· < ·) := by
  have hs := sortStrings_sorted l
  have hn := sortStrings_nodup h
  exact hs.imp₂ (fun a b hab hne => lt_of_le_of_ne hab hne) hn

theorem sortStrings_eq_self_of_sorted :
    ∀ l : List String, l.Pairwise (· < ·) → sortStrings l = l
  | [], _ => rfl
  | x :: xs, h => by
    rw [sortStrings, List.foldr_cons]
    have hxs : sortStrings xs = xs := sortStrings_eq_self_of_sorted xs h.of_cons
    rw [show List.foldr insertSortedStr [] xs = sortStrings xs from rfl, hxs]
    cases xs with
    | nil => rfl
    | cons y ys =>
      rw [insertSortedStr]
      rw [if_pos (strLeB_of_le (le_of_lt (List.rel_of_pairwise_cons h
        (List.mem_cons_self y ys))))]

/-! ## Association list lemmas -/

theorem lookupAssoc_isSome_of_mem {m : List (String × α)} {k : String} :
    k ∈ m.map Prod.fst → (lookupAssoc k m).isSome = true := by
  induction m with
  | nil => intro h; cases h
  | cons e rest ih =>
    rcases e with ⟨k1, v⟩
    intro h
    rw [List.map_cons] at h
    rw [lookupAssoc]
    by_cases he : k1 = k
    · rw [if_pos he]; rfl
    · rw [if_neg he]
      rcases List.mem_cons.mp h with h2 | h2
      · exact absurd h2.symm he
      · exact ih h2

theorem filterMapCongrMem {α β : Type} {f g : α → Option β} :
    ∀ l : List α, (∀ x ∈ l, f x = g x) → l.filterMap f = l.filterMap g := by
  intro l
  induction l with
  | nil => intro _; rfl
  | cons x rest ih =>
    intro h
    rw [List.filterMap_cons, List.filterMap_cons, h x (List.mem_cons_self x rest),
      ih fun y hy => h y (List.mem_cons.mpr (Or.inr hy))]

theorem filterMap_lookup_keys {α : Type} {m : List (String × α)} :
    ∀ l : List String, (∀ k ∈ l, (lookupAssoc k m).isSome = true) →
      (l.filterMap fun k => (lookupAssoc k m).map fun v => (k, v)).map Prod.fst = l := by
  intro l
  induction l with
  | nil => intro _; rfl
  | cons k rest ih =>
    intro h
    rcases ho : lookupAssoc k m with _ | v
    · have h2 := h k (List.mem_cons_self k rest)
      rw [ho] at h2
      simp at h2
    · simp only [List.filterMap_cons, ho, Option.map_some', List.map_cons]
      rw [ih fun y hy => h y (List.mem_cons.mpr (Or.inr hy))]

theorem sortedAssoc_keys {α : Type} (m : List (String × α)) :
    (sortedAssoc m).map Prod.fst = sortStrings (m.map Prod.fst) := by
  rw [sortedAssoc]
  exact filterMap_lookup_keys _ fun k hk =>
    lookupAssoc_isSome_of_mem (mem_sortStrings.mp hk)

theorem lookupAssoc_cons_ne {α : Type} {k1 k : String} {v : α} {m : List (String × α)}
    (h : k1 ≠ k) : lookupAssoc k ((k1, v) :: m) = lookupAssoc k m := by
  rw [lookupAssoc, if_neg h]

theorem filterMap_lookup_self {α : Type} :
    ∀ m : List (String × α), (m.map Prod.fst).Nodup →
      ((m.map Prod.fst).filterMap fun k => (lookupAssoc k m).map fun v => (k, v)) = m := by
  intro m
  induction m with
  | nil => intro _; rfl
  | cons e rest ih =>
    intro h
    rcases e with ⟨k, v⟩
    rw [List.map_cons, List.filterMap_cons]
    have hk : lookupAssoc k ((k, v) :: rest) = some v := by
      rw [lookupAssoc, if_pos rfl]
    rw [hk]
    simp only [Option.map_some']
    have hne : ∀ k2 ∈ rest.map Prod.fst, k ≠ k2 := by
      intro k2 hk2
      exact fun he => (List.nodup_cons.mp h).1 (he ▸ hk2)
    have hcongr :
        (rest.map Prod.fst).filterMap (fun k2 => (lookupAssoc k2 ((k, v) :: rest)).map
            fun v2 => (k2, v2)) =
        (rest.map Prod.fst).filterMap fun k2 => (lookupAssoc k2 rest).map fun v2 => (k2, v2) := by
      refine filterMapCongrMem _ fun k2 hk2 => ?_
      rw [lookupAssoc_cons_ne (hne k2 hk2)]
    rw [hcongr, ih (List.nodup_cons.mp h).2]

theorem pairwise_fst_lt_nodup {α : Type} {m : List (String × α)}
    (h : m.Pairwise fun a b => a.1 < b.1) : (m.map Prod.fst).Nodup := by
  have h2 : (m.map Prod.fst).Pairwise (· < ·) := List.pairwise_map.mpr h
  exact h2.imp fun hlt => ne_of_lt hlt

theorem sortedAssoc_eq_self {α : Type} {m : List (String × α)}
    (h : m.Pairwise fun a b => a.1 < b.1) : sortedAssoc m = m := by
  have hkeys : (m.map Prod.fst).Pairwise (· < ·) := List.pairwise_map.mpr h
  rw [sortedAssoc, sortStrings_eq_self_of_sorted _ hkeys]
  exact filterMap_lookup_self m (pairwise_fst_lt_nodup h)

/-! ## Generic fold lemmas over `Except` -/

theorem foldlMPreserve {α β ε : Type} {P : β → Prop} {f : β → α → Except ε β}
    (hf : ∀ acc x res, P acc → f acc x = .ok res → P res) :
    ∀ (l : List α) (acc res), List.foldlM f acc l = .ok res → P acc → P res := by
  intro l
  induction l with
  | nil =>
    intro acc res hr hp
    rw [List.foldlM_nil] at hr
    cases hr
    exact hp
  | cons x rest ih =>
    intro acc res hr hp
    rw [List.foldlM_cons] at hr
    rcases h1 : f acc x with e | b
    · rw [h1] at hr
      cases hr
    · rw [h1] at hr
      exact ih b res hr (hf acc x b hp h1)

/-! ## Loader lemmas -/

theorem loadFrom_append :
    ∀ (fs1 fs2 : List (String × FileContent)) (d : List String) (m : ByTypeMap),
      loadFrom d m (fs1 ++ fs2) =
        match loadFrom d m fs1 with
        | .ok (d2, m2) => loadFrom d2 m2 fs2
        | .error e => .error e := by
  intro fs1
  induction fs1 with
  | nil => intro fs2 d m; rfl
  | cons f rest ih =>
    intro fs2 d m
    rcases f with ⟨name, content⟩
    cases content with
    | malformed l c msg =>
      rw [List.cons_append]
      rw [show loadFrom d m ((name, FileContent.malformed l c msg) :: (rest ++ fs2)) =
        loadFrom (d ++ [jsonErrorMsg name l c msg]) m (rest ++ fs2) from rfl]
      rw [show loadFrom d m ((name, FileContent.malformed l c msg) :: rest) =
        loadFrom (d ++ [jsonErrorMsg name l c msg]) m rest from rfl]
      exact ih fs2 _ _
    | record b =>
      rw [List.cons_append]
      rcases he : b.enabled with _ | v
      · rw [loadFrom, loadFrom, he]
      · rcases ht : b.biomeType with _ | t
        · rw [loadFrom, loadFrom, he, ht]
        · rw [loadFrom, loadFrom, he, ht]
          exact ih fs2 _ _

/-! ## Extraction characterization -/

theorem exceptOkBind {ε α β : Type} (a : α) (f : α → Except ε β) :
    (Except.ok a >>= f) = f a := rfl

theorem exceptErrorBind {ε α β : Type} (e : ε) (f : α → Except ε β) :
    ((Except.error e : Except ε α) >>= f) = Except.error e := rfl

theorem appendPatch_fresh :
    ∀ (acc : PatchMap) (pre : List Patch) (t : String) (p : Patch),
      t ∉ acc.map Prod.fst →
      appendPatch t p (acc ++ optEntry t pre) = acc ++ [(t, pre ++ [p])] := by
  intro acc
  induction acc with
  | nil =>
    intro pre t p _
    cases pre with
    | nil => rfl
    | cons q qs =>
      rw [optEntry]
      rw [if_neg (by simp)]
      rw [List.nil_append, List.nil_append, appendPatch, if_pos rfl]
  | cons e acc2 ih =>
    intro pre t p hnotin
    rcases e with ⟨k, v⟩
    have hk : ¬ (k = t) := by
      intro he
      apply hnotin
      rw [List.map_cons]
      exact List.mem_cons.mpr (Or.inl he.symm)
    have hnotin2 : t ∉ acc2.map Prod.fst := by
      intro hmem
      apply hnotin
      rw [List.map_cons]
      exact List.mem_cons.mpr (Or.inr hmem)
    rw [List.cons_append, appendPatch, if_neg hk, ih pre t p hnotin2, List.cons_append]

theorem extractColors_fresh :
    ∀ (colors : List String) (acc : PatchMap) (pre : List Patch) (t name : String),
      t ∉ acc.map Prod.fst →
      extractColors t name colors (acc ++ optEntry t pre) =
        acc ++ optEntry t (pre ++ colors.map fun c => (⟨name, colorCode c⟩ : Patch)) := by
  intro colors
  induction colors with
  | nil =>
    intro acc pre t name _
    rw [extractColors, List.foldl_nil, List.map_nil, List.append_nil]
  | cons c cs ih =>
    intro acc pre t name hfresh
    have step : extractColors t name (c :: cs) (acc ++ optEntry t pre) =
        extractColors t name cs (appendPatch t ⟨name, colorCode c⟩ (acc ++ optEntry t pre)) := rfl
    rw [step, appendPatch_fresh acc pre t _ hfresh]
    have hopt : acc ++ [(t, pre ++ [(⟨name, colorCode c⟩ : Patch)])] =
        acc ++ optEntry t (pre ++ [(⟨name, colorCode c⟩ : Patch)]) := by
      rw [optEntry, if_neg (by simp)]
    rw [hopt]
    have ih2 := ih acc (pre ++ [(⟨name, colorCode c⟩ : Patch)]) t name hfresh
    rw [ih2, List.map_cons, List.append_assoc]
    rfl

theorem extractInner_fresh :
    ∀ (entries : List (String × Biome)) (acc : PatchMap) (pre : List Patch) (t : String)
      (res : PatchMap), t ∉ acc.map Prod.fst →
      List.foldlM (extractBiome t) (acc ++ optEntry t pre) entries = .ok res →
      res = acc ++ optEntry t (pre ++ entries.flatMap fun nb => patchesOfBiome nb.1 nb.2) := by
  intro entries
  induction entries with
  | nil =>
    intro acc pre t res _ hres
    rw [List.foldlM_nil] at hres
    cases hres
    rw [List.flatMap_nil, List.append_nil]
  | cons nb rest ih =>
    intro acc pre t res hfresh hres
    rw [List.foldlM_cons] at hres
    rcases nb with ⟨n, b⟩
    rcases hb : b.biomeColors with _ | cs
    · rw [show extractBiome t (acc ++ optEntry t pre) (n, b) =
          .error (.keyError "biomeColors") from by rw [extractBiome, hb],
        exceptErrorBind] at hres
      cases hres
    · rw [show extractBiome t (acc ++ optEntry t pre) (n, b) =
          .ok (extractColors t n cs (acc ++ optEntry t pre)) from by rw [extractBiome, hb],
        exceptOkBind] at hres
      rw [extractColors_fresh cs acc pre t n hfresh] at hres
      have hmain := ih acc (pre ++ cs.map fun c => ⟨n, colorCode c⟩) t res hfresh hres
      rw [hmain, List.flatMap_cons]
      have hpat : patchesOfBiome n b = cs.map fun c => (⟨n, colorCode c⟩ : Patch) := by
        rw [patchesOfBiome, hb]
        rfl
      rw [hpat, List.append_assoc]

theorem extractTypes_fresh :
    ∀ (entries : List (String × List (String × Biome))) (acc : PatchMap) (res : PatchMap),
      (∀ e ∈ entries, e.1 ∉ acc.map Prod.fst) → (entries.map Prod.fst).Nodup →
      List.foldlM extractType acc entries = .ok res →
      res = acc ++ entries.filterMap fun e =>
        let ps := typePatchesSpec e.2
        if ps.isEmpty then none else some (e.1, ps) := by
  intro entries
  induction entries with
  | nil =>
    intro acc res _ _ hres
    rw [List.foldlM_nil] at hres
    cases hres
    rw [List.filterMap_nil, List.append_nil]
  | cons e rest ih =>
    intro acc res hfresh hnodup hres
    rw [List.foldlM_cons] at hres
    rcases e with ⟨t, inner⟩
    rcases hstep : extractType acc (t, inner) with er | acc2
    · rw [hstep, exceptErrorBind] at hres
      cases hres
    · rw [hstep, exceptOkBind] at hres
      have hfresh1 : t ∉ acc.map Prod.fst :=
        hfresh (t, inner) (List.mem_cons_self _ _)
      have hacc2 : acc2 = acc ++ optEntry t (typePatchesSpec inner) := by
        have hstart : acc ++ optEntry t [] = acc := by
          simp [optEntry]
        have hres2 : List.foldlM (extractBiome t) (acc ++ optEntry t [])
            (sortedAssoc inner) = .ok acc2 := by
          rw [hstart]
          exact hstep
        have := extractInner_fresh (sortedAssoc inner) acc [] t acc2 hfresh1 hres2
        rw [this, List.nil_append]
        rfl
      have htmem : t ∉ rest.map Prod.fst := by
        rw [List.map_cons] at hnodup
        exact (List.nodup_cons.mp hnodup).1
      have hfresh2 : ∀ e2 ∈ rest, e2.1 ∉ acc2.map Prod.fst := by
        intro e2 he2 hmem
        rw [hacc2, List.map_append, List.mem_append] at hmem
        rcases hmem with hmem | hmem
        · exact hfresh e2 (List.mem_cons.mpr (Or.inr he2)) hmem
        · rw [optEntry] at hmem
          by_cases hemp : (typePatchesSpec inner).isEmpty
          · rw [if_pos hemp] at hmem
            cases hmem
          · rw [if_neg hemp] at hmem
            have h2 : e2.1 = t := by simpa using hmem
            apply htmem
            rw [← h2]
            exact List.mem_map_of_mem Prod.fst he2
      have hnodup2 : (rest.map Prod.fst).Nodup := by
        rw [List.map_cons] at hnodup
        exact (List.nodup_cons.mp hnodup).2
      have hmain := ih acc2 res hfresh2 hnodup2 hres
      rw [hmain, hacc2, List.filterMap_cons]
      by_cases hemp : (typePatchesSpec inner).isEmpty
      · simp [optEntry, hemp]
      · simp [optEntry, hemp, List.append_assoc]

theorem extractPatches_spec {byType : ByTypeMap} {bps : PatchMap}
    (hnd : (byType.map Prod.fst).Nodup) (h : extractPatches byType = .ok bps) :
    bps = extractPatchesSpec byType := by
  have hkeys : (sortedAssoc byType).map Prod.fst = sortStrings (byType.map Prod.fst) :=
    sortedAssoc_keys _
  have hnd2 : ((sortedAssoc byType).map Prod.fst).Nodup := by
    rw [hkeys]
    exact sortStrings_nodup hnd
  have hmain := extractTypes_fresh (sortedAssoc byType) [] bps
    (by intro e _ hmem; cases hmem) hnd2 h
  rw [hmain, List.nil_append]
  rfl

theorem sortedAssoc_pairwise {α : Type} {m : List (String × α)}
    (h : (m.map Prod.fst).Nodup) :
    (sortedAssoc m).Pairwise fun a b => a.1 < b.1 := by
  have h1 : ((sortedAssoc m).map Prod.fst).Pairwise (· < ·) := by
    rw [sortedAssoc_keys]
    exact sortStrings_pairwise_lt h
  exact List.pairwise_map.mp h1

theorem extractPatchesSpec_pairwise {byType : ByTypeMap}
    (h : (byType.map Prod.fst).Nodup) :
    (extractPatchesSpec byType).Pairwise fun a b => a.1 < b.1 := by
  rw [extractPatchesSpec]
  refine List.Pairwise.filterMap _ ?_ (sortedAssoc_pairwise h)
  intro a a2 hlt b hb b2 hb2
  have hb3 : b.1 = a.1 := by
    simp only [Option.mem_def] at hb
    split at hb
    · cases hb
    · cases hb
      rfl
  have hb4 : b2.1 = a2.1 := by
    simp only [Option.mem_def] at hb2
    split at hb2
    · cases hb2
    · cases hb2
      rfl
  rw [hb3, hb4]
  exact hlt

/-! ## Preserved invariants of the extraction fold -/

theorem appendPatch_pred {Q : Patch → Prop} {m : PatchMap} {t : String} {p : Patch}
    (hm : ∀ e ∈ m, ∀ q ∈ e.2, Q q) (hp : Q p) :
    ∀ e ∈ appendPatch t p m, ∀ q ∈ e.2, Q q := by
  induction m with
  | nil =>
    intro e he q hq
    rw [appendPatch] at he
    rcases List.mem_singleton.mp he with rfl
    rcases List.mem_singleton.mp hq with rfl
    exact hp
  | cons e1 rest ih =>
    rcases e1 with ⟨k, ps⟩
    intro e he q hq
    rw [appendPatch] at he
    by_cases hk : k = t
    · rw [if_pos hk] at he
      rcases List.mem_cons.mp he with rfl | he2
      · rcases List.mem_append.mp hq with hq2 | hq2
        · exact hm (k, ps) (List.mem_cons_self _ _) q hq2
        · rcases List.mem_singleton.mp hq2 with rfl
          exact hp
      · exact hm e (List.mem_cons.mpr (Or.inr he2)) q hq
    · rw [if_neg hk] at he
      rcases List.mem_cons.mp he with rfl | he2
      · exact hm (k, ps) (List.mem_cons_self _ _) q hq
      · exact ih (fun e2 he3 => hm e2 (List.mem_cons.mpr (Or.inr he3))) e he2 q hq

theorem extractColors_pred {Q : Patch → Prop} {t name : String} :
    ∀ (colors : List String) (m : PatchMap),
      (∀ e ∈ m, ∀ q ∈ e.2, Q q) →
      (∀ c ∈ colors, Q ⟨name, colorCode c⟩) →
      ∀ e ∈ extractColors t name colors m, ∀ q ∈ e.2, Q q := by
  intro colors
  induction colors with
  | nil => intro m hm _; exact hm
  | cons c cs ih =>
    intro m hm hc
    have step : extractColors t name (c :: cs) m =
        extractColors t name cs (appendPatch t ⟨name, colorCode c⟩ m) := rfl
    rw [step]
    exact ih _ (appendPatch_pred hm (hc c (List.mem_cons_self _ _)))
      fun c2 hc2 => hc c2 (List.mem_cons.mpr (Or.inr hc2))

theorem appendPatch_entries_nonempty {m : PatchMap} {t : String} {p : Patch}
    (hm : ∀ e ∈ m, e.2 ≠ []) :
    ∀ e ∈ appendPatch t p m, e.2 ≠ [] := by
  induction m with
  | nil =>
    intro e he
    rw [appendPatch] at he
    rcases List.mem_singleton.mp he with rfl
    simp
  | cons e1 rest ih =>
    rcases e1 with ⟨k, ps⟩
    intro e he
    rw [appendPatch] at he
    by_cases hk : k = t
    · rw [if_pos hk] at he
      rcases List.mem_cons.mp he with rfl | he2
      · simp
      · exact hm e (List.mem_cons.mpr (Or.inr he2))
    · rw [if_neg hk] at he
      rcases List.mem_cons.mp he with rfl | he2
      · exact hm (k, ps) (List.mem_cons_self _ _)
      · exact ih (fun e2 he3 => hm e2 (List.mem_cons.mpr (Or.inr he3))) e he2

theorem extractColors_entries_nonempty {t name : String} :
    ∀ (colors : List String) (m : PatchMap),
      (∀ e ∈ m, e.2 ≠ []) →
      ∀ e ∈ extractColors t name colors m, e.2 ≠ [] := by
  intro colors
  induction colors with
  | nil => intro m hm; exact hm
  | cons c cs ih =>
    intro m hm
    have step : extractColors t name (c :: cs) m =
        extractColors t name cs (appendPatch t ⟨name, colorCode c⟩ m) := rfl
    rw [step]
    exact ih _ (appendPatch_entries_nonempty hm)

theorem extractPatches_entries_nonempty {byType : ByTypeMap} {bps : PatchMap}
    (h : extractPatches byType = .ok bps) : ∀ e ∈ bps, e.2 ≠ [] := by
  refine foldlMPreserve (P := fun m : PatchMap => ∀ e ∈ m, e.2 ≠ []) ?_
    (sortedAssoc byType) [] bps h (by intro e he; cases he)
  intro acc entry res hacc hstep
  rw [extractType] at hstep
  refine foldlMPreserve (P := fun m : PatchMap => ∀ e ∈ m, e.2 ≠ []) ?_
    (sortedAssoc entry.2) acc res hstep hacc
  intro acc2 nb res2 hacc2 hstep2
  rw [extractBiome] at hstep2
  rcases hb : nb.2.biomeColors with _ | cs
  · rw [hb] at hstep2
    cases hstep2
  · rw [hb] at hstep2
    cases hstep2
    exact extractColors_entries_nonempty cs acc2 hacc2

/-! ## Loader key uniqueness -/

theorem insertAssoc_keys {α : Type} {k : String} {v : α} :
    ∀ m : List (String × α),
      (insertAssoc k v m).map Prod.fst =
        if k ∈ m.map Prod.fst then m.map Prod.fst else m.map Prod.fst ++ [k] := by
  intro m
  induction m with
  | nil =>
    rw [insertAssoc, List.map_nil, if_neg (by intro h; cases h), List.nil_append, List.map_cons]
    rfl
  | cons e rest ih =>
    rcases e with ⟨k1, v1⟩
    rw [insertAssoc]
    by_cases hk : k1 = k
    · rw [if_pos hk, List.map_cons, List.map_cons,
        if_pos (show k ∈ (k1, v1).1 :: rest.map Prod.fst from
          List.mem_cons.mpr (Or.inl hk.symm))]
    · rw [if_neg hk, List.map_cons, List.map_cons, ih]
      by_cases hmem : k ∈ rest.map Prod.fst
      · rw [if_pos hmem,
          if_pos (show k ∈ (k1, v1).1 :: rest.map Prod.fst from
            List.mem_cons.mpr (Or.inr hmem))]
      · rw [if_neg hmem,
          if_neg (show k ∉ (k1, v1).1 :: rest.map Prod.fst from by
            intro hcon
            rcases List.mem_cons.mp hcon with h2 | h2
            · exact hk h2.symm
            · exact hmem h2),
          List.cons_append]

theorem insertAssoc_keys_nodup {α : Type} {k : String} {v : α} {m : List (String × α)}
    (h : (m.map Prod.fst).Nodup) : ((insertAssoc k v m).map Prod.fst).Nodup := by
  rw [insertAssoc_keys]
  by_cases hmem : k ∈ m.map Prod.fst
  · rw [if_pos hmem]
    exact h
  · rw [if_neg hmem]
    refine List.Nodup.append h (List.nodup_singleton k) ?_
    intro a ha hb
    rcases List.mem_singleton.mp hb with rfl
    exact hmem ha

theorem insertBiome_keys {t n : String} {b : Biome} :
    ∀ m : ByTypeMap,
      (insertBiome t n b m).map Prod.fst =
        if t ∈ m.map Prod.fst then m.map Prod.fst else m.map Prod.fst ++ [t] := by
  intro m
  induction m with
  | nil =>
    rw [insertBiome, List.map_nil, if_neg (by intro h; cases h), List.nil_append, List.map_cons]
    rfl
  | cons e rest ih =>
    rcases e with ⟨t1, inner⟩
    rw [insertBiome]
    by_cases ht : t1 = t
    · rw [if_pos ht, List.map_cons, List.map_cons,
        if_pos (show t ∈ (t1, inner).1 :: rest.map Prod.fst from
          List.mem_cons.mpr (Or.inl ht.symm))]
    · rw [if_neg ht, List.map_cons, List.map_cons, ih]
      by_cases hmem : t ∈ rest.map Prod.fst
      · rw [if_pos hmem,
          if_pos (show t ∈ (t1, inner).1 :: rest.map Prod.fst from
            List.mem_cons.mpr (Or.inr hmem))]
      · rw [if_neg hmem,
          if_neg (show t ∉ (t1, inner).1 :: rest.map Prod.fst from by
            intro hcon
            rcases List.mem_cons.mp hcon with h2 | h2
            · exact ht h2.symm
            · exact hmem h2),
          List.cons_append]

theorem insertBiome_nodup {t n : String} {b : Biome} :
    ∀ m : ByTypeMap,
      (m.map Prod.fst).Nodup → (∀ e ∈ m, (e.2.map Prod.fst).Nodup) →
      ((insertBiome t n b m).map Prod.fst).Nodup ∧
        ∀ e ∈ insertBiome t n b m, (e.2.map Prod.fst).Nodup := by
  intro m
  induction m with
  | nil =>
    intro _ _
    constructor
    · exact List.nodup_singleton t
    · intro e he
      rcases List.mem_singleton.mp he with rfl
      exact List.nodup_singleton n
  | cons e1 rest ih =>
    rcases e1 with ⟨t1, inner⟩
    intro h1 h2
    rw [insertBiome]
    by_cases ht : t1 = t
    · rw [if_pos ht]
      constructor
      · rw [List.map_cons]
        rw [List.map_cons] at h1
        exact h1
      · intro e he
        rcases List.mem_cons.mp he with rfl | he2
        · exact insertAssoc_keys_nodup (h2 (t1, inner) (List.mem_cons_self _ _))
        · exact h2 e (List.mem_cons.mpr (Or.inr he2))
    · rw [if_neg ht]
      rw [List.map_cons] at h1
      have hrec := ih (List.nodup_cons.mp h1).2
        fun e he => h2 e (List.mem_cons.mpr (Or.inr he))
      constructor
      · rw [List.map_cons]
        refine List.nodup_cons.mpr ⟨?_, hrec.1⟩
        rw [insertBiome_keys]
        by_cases hmem : t ∈ rest.map Prod.fst
        · rw [if_pos hmem]
          exact (List.nodup_cons.mp h1).1
        · rw [if_neg hmem]
          rw [List.mem_append]
          intro hcon
          rcases hcon with h3 | h3
          · exact (List.nodup_cons.mp h1).1 h3
          · rcases List.mem_singleton.mp h3 with rfl
            exact ht rfl
      · intro e he
        rcases List.mem_cons.mp he with rfl | he2
        · exact h2 (t1, inner) (List.mem_cons_self _ _)
        · exact hrec.2 e he2

theorem loadFrom_nodup :
    ∀ (fs : List (String × FileContent)) (d : List String) (m : ByTypeMap)
      (d2 : List String) (m2 : ByTypeMap),
      loadFrom d m fs = .ok (d2, m2) →
      (m.map Prod.fst).Nodup → (∀ e ∈ m, (e.2.map Prod.fst).Nodup) →
      (m2.map Prod.fst).Nodup ∧ ∀ e ∈ m2, (e.2.map Prod.fst).Nodup := by
  intro fs
  induction fs with
  | nil =>
    intro d m d2 m2 h h1 h2
    rw [loadFrom] at h
    cases h
    exact ⟨h1, h2⟩
  | cons f rest ih =>
    intro d m d2 m2 h h1 h2
    rcases f with ⟨name, content⟩
    cases content with
    | malformed l c msg =>
      rw [loadFrom] at h
      exact ih _ _ _ _ h h1 h2
    | record b =>
      rcases he : b.enabled with _ | v
      · rw [loadFrom, he] at h
        cases h
      · rcases hbt : b.biomeType with _ | t
        · rw [loadFrom, he, hbt] at h
          cases h
        · rw [loadFrom, he, hbt] at h
          have hins := insertBiome_nodup (t := t) (n := baseNameOf name) (b := b) m h1 h2
          exact ih _ _ _ _ h hins.1 hins.2

/-! ## Maximum and row-count lemmas -/

theorem foldlMaxLe : ∀ (xs : List Nat) (seed : Nat),
    seed ≤ xs.foldl max seed ∧ ∀ y ∈ xs, y ≤ xs.foldl max seed := by
  intro xs
  induction xs with
  | nil =>
    intro seed
    exact ⟨le_refl _, by intro y hy; cases hy⟩
  | cons x rest ih =>
    intro seed
    rw [List.foldl_cons]
    obtain ⟨ha, hb⟩ := ih (max seed x)
    refine ⟨le_trans (le_max_left seed x) ha, ?_⟩
    intro y hy
    rcases List.mem_cons.mp hy with rfl | hy2
    · exact le_trans (le_max_right seed y) ha
    · exact hb y hy2

theorem maxList_ge {l : List Nat} {m : Nat} (h : maxList l = some m) : ∀ y ∈ l, y ≤ m := by
  cases l with
  | nil => cases h
  | cons x xs =>
    rw [maxList] at h
    cases h
    intro y hy
    rcases List.mem_cons.mp hy with rfl | hy2
    · exact (foldlMaxLe xs y).1
    · exact (foldlMaxLe xs x).2 y hy2

theorem maxList_pos {l : List Nat} {m : Nat} (h : maxList l = some m)
    (hl : ∀ y ∈ l, 1 ≤ y) : 1 ≤ m := by
  cases l with
  | nil => cases h
  | cons x xs =>
    rw [maxList] at h
    cases h
    exact le_trans (hl x (List.mem_cons_self _ _)) (foldlMaxLe xs x).1

theorem computeRows_snd (w : Nat) :
    ∀ bps : PatchMap,
      (computeRows w bps).2 = (bps.map fun e => (w - 1 + e.2.length) / w).sum := by
  intro bps
  induction bps with
  | nil => rfl
  | cons e rest ih =>
    rcases e with ⟨t, ps⟩
    rw [computeRows, List.map_cons, List.sum_cons, ← ih]

theorem wrapDiv_eq_ceilDiv {p M w : Nat} (hp : 1 ≤ p) (hpM : p ≤ M) (hw : 1 ≤ w) :
    (w - 1 + p) / w = (p + min M w - 1) / min M w := by
  rcases le_or_lt w M with h | h
  · rw [min_eq_right h]
    congr 1
    omega
  · rw [min_eq_left (le_of_lt h)]
    have h1 : (w - 1 + p) / w = 1 := by
      apply Nat.div_eq_of_lt_le
      · omega
      · omega
    have h2 : (p + M - 1) / M = 1 := by
      apply Nat.div_eq_of_lt_le
      · omega
      · omega
    rw [h1, h2]

/-! ## Color code normalization lemmas -/

theorem data_append_hash (s : String) : ("#" ++ s).data = '#' :: s.data := rfl

theorem hexVal_isSome_ne_hash {ch : Char} (h : (hexVal ch).isSome = true) : ¬ ch = '#' := by
  intro he
  rw [he] at h
  cases h

theorem colorCode_of_not_hash {s : String} (h : startswithHash s = false) :
    colorCode s = "#" ++ s := by
  rw [colorCode, h]
  rfl

theorem colorCode_of_hash {s : String} (h : startswithHash s = true) :
    colorCode s = s := by
  rw [colorCode, h]
  rfl

theorem colorCode_valid {c : String} (h : validColorStr c = true) :
    matchesHashHex6 (colorCode c) = true := by
  rw [validColorStr, Bool.or_eq_true] at h
  rcases h with h | h
  · rw [matchesHex6] at h
    rcases hd : c.data with _ | ⟨c1, _ | ⟨c2, _ | ⟨c3, _ | ⟨c4, _ | ⟨c5, _ | ⟨c6, _ | ⟨c7, rest⟩⟩⟩⟩⟩⟩⟩ <;>
      rw [hd] at h
    case nil => cases h
    case cons.nil => cases h
    case cons.cons.nil => cases h
    case cons.cons.cons.nil => cases h
    case cons.cons.cons.cons.nil => cases h
    case cons.cons.cons.cons.cons.nil => cases h
    case cons.cons.cons.cons.cons.cons.cons => cases h
    case cons.cons.cons.cons.cons.cons.nil =>
      simp only [Bool.and_eq_true] at h
      obtain ⟨⟨⟨⟨⟨ha, hb⟩, hc⟩, hd2⟩, he⟩, hf⟩ := h
      have hsw : startswithHash c = false := by
        rw [startswithHash, hd]
        exact decide_eq_false (hexVal_isSome_ne_hash ha)
      rw [colorCode_of_not_hash hsw, matchesHashHex6, data_append_hash, hd]
      simp only [Bool.and_eq_true]
      exact ⟨⟨⟨⟨⟨⟨by rfl, ha⟩, hb⟩, hc⟩, hd2⟩, he⟩, hf⟩
  · have hsw : startswithHash c = true := by
      rw [matchesHashHex6] at h
      rcases hd : c.data with _ | ⟨c1, _ | ⟨c2, _ | ⟨c3, _ | ⟨c4, _ | ⟨c5, _ | ⟨c6, _ | ⟨c7, _ | ⟨c8, rest⟩⟩⟩⟩⟩⟩⟩⟩ <;>
        rw [hd] at h
      case nil => cases h
      case cons.nil => cases h
      case cons.cons.nil => cases h
      case cons.cons.cons.nil => cases h
      case cons.cons.cons.cons.nil => cases h
      case cons.cons.cons.cons.cons.nil => cases h
      case cons.cons.cons.cons.cons.cons.nil => cases h
      case cons.cons.cons.cons.cons.cons.cons.cons => cases h
      case cons.cons.cons.cons.cons.cons.cons.nil =>
        simp only [Bool.and_eq_true] at h
        have hc1 : c1 = '#' := of_decide_eq_true h.1.1.1.1.1.1
        rw [startswithHash, hd, hc1]
        rfl
    rw [colorCode_of_hash hsw]
    exact h

theorem foldlMPreserveMem {α β ε : Type} {P : β → Prop} {f : β → α → Except ε β} :
    ∀ l : List α, (∀ acc x res, x ∈ l → P acc → f acc x = .ok res → P res) →
      ∀ acc res, List.foldlM f acc l = .ok res → P acc → P res := by
  intro l
  induction l with
  | nil =>
    intro _ acc res hr hp
    rw [List.foldlM_nil] at hr
    cases hr
    exact hp
  | cons x rest ih =>
    intro hf acc res hr hp
    rw [List.foldlM_cons] at hr
    rcases h1 : f acc x with e | b
    · rw [h1, exceptErrorBind] at hr
      cases hr
    · rw [h1, exceptOkBind] at hr
      exact ih (fun acc2 y res2 hy => hf acc2 y res2 (List.mem_cons.mpr (Or.inr hy)))
        b res hr (hf acc x b (List.mem_cons_self _ _) hp h1)

theorem lookupAssoc_mem {α : Type} {k : String} {v : α} :
    ∀ {m : List (String × α)}, lookupAssoc k m = some v → (k, v) ∈ m := by
  intro m
  induction m with
  | nil => intro h; cases h
  | cons e rest ih =>
    rcases e with ⟨k1, v1⟩
    intro h
    rw [lookupAssoc] at h
    by_cases hk : k1 = k
    · rw [if_pos hk] at h
      cases h
      exact List.mem_cons.mpr (Or.inl (by rw [hk]))
    · rw [if_neg hk] at h
      exact List.mem_cons.mpr (Or.inr (ih h))

theorem mem_sortedAssoc {α : Type} {m : List (String × α)} {e : String × α}
    (h : e ∈ sortedAssoc m) : e ∈ m := by
  rw [sortedAssoc] at h
  rcases List.mem_filterMap.mp h with ⟨k, _, hf⟩
  rcases ho : lookupAssoc k m with _ | v
  · rw [ho] at hf
    cases hf
  · rw [ho] at hf
    cases hf
    exact lookupAssoc_mem ho

theorem extractPatches_valid {byType : ByTypeMap} {bps : PatchMap}
    (hv : ∀ e ∈ byType, ∀ nb ∈ e.2, ∀ c ∈ nb.2.biomeColors.getD [], validColorStr c = true)
    (h : extractPatches byType = .ok bps) :
    ∀ e ∈ bps, ∀ p ∈ e.2, matchesHashHex6 p.biomeColor = true := by
  refine foldlMPreserveMem
    (P := fun m => ∀ e ∈ m, ∀ p ∈ e.2, matchesHashHex6 p.biomeColor = true)
    (sortedAssoc byType) ?_ [] bps h (by intro e he; cases he)
  intro acc entry res hmem hacc hstep
  rw [extractType] at hstep
  have hentry : entry ∈ byType := mem_sortedAssoc hmem
  refine foldlMPreserveMem
    (P := fun m => ∀ e ∈ m, ∀ p ∈ e.2, matchesHashHex6 p.biomeColor = true)
    (sortedAssoc entry.2) ?_ acc res hstep hacc
  intro acc2 nb res2 hmem2 hacc2 hstep2
  have hnb : nb ∈ entry.2 := mem_sortedAssoc hmem2
  rw [extractBiome] at hstep2
  rcases hb : nb.2.biomeColors with _ | cs
  · rw [hb] at hstep2
    cases hstep2
  · rw [hb] at hstep2
    cases hstep2
    refine extractColors_pred cs acc2 hacc2 ?_
    intro c hc
    exact colorCode_valid (hv entry hentry nb hnb c (by rw [hb]; exact hc))

/-! ## Congruence of the pipeline in everything but the enabled flag -/

theorem forall2_keys {α β : Type} {R : α → β → Prop} :
    ∀ {m1 : List (String × α)} {m2 : List (String × β)},
      List.Forall₂ (fun a b => a.1 = b.1 ∧ R a.2 b.2) m1 m2 →
      m1.map Prod.fst = m2.map Prod.fst := by
  intro m1 m2 h
  induction h with
  | nil => rfl
  | cons hab _ ih =>
    rw [List.map_cons, List.map_cons, hab.1, ih]

theorem forall2_lookup {α β : Type} {R : α → β → Prop} (k : String) :
    ∀ {m1 : List (String × α)} {m2 : List (String × β)},
      List.Forall₂ (fun a b => a.1 = b.1 ∧ R a.2 b.2) m1 m2 →
      OptionAgree R (lookupAssoc k m1) (lookupAssoc k m2) := by
  intro m1 m2 h
  induction h with
  | nil =>
    rw [lookupAssoc, lookupAssoc]
    trivial
  | @cons a b l1 l2 hab _ ih =>
    rcases a with ⟨k1, v1⟩
    rcases b with ⟨k2, v2⟩
    obtain ⟨hk12, hR⟩ := hab
    have hkk : k1 = k2 := hk12
    rw [lookupAssoc, lookupAssoc]
    by_cases hk : k1 = k
    · rw [if_pos hk, if_pos (hkk ▸ hk)]
      exact hR
    · rw [if_neg hk, if_neg (hkk ▸ hk)]
      exact ih

theorem forall2_filterMap_lookup {α β : Type} {R : α → β → Prop}
    {m1 : List (String × α)} {m2 : List (String × β)}
    (hlook : ∀ k, OptionAgree R (lookupAssoc k m1) (lookupAssoc k m2)) :
    ∀ l : List String,
      List.Forall₂ (fun a b => a.1 = b.1 ∧ R a.2 b.2)
        (l.filterMap fun k => (lookupAssoc k m1).map fun v => (k, v))
        (l.filterMap fun k => (lookupAssoc k m2).map fun v => (k, v)) := by
  intro l
  induction l with
  | nil => exact List.Forall₂.nil
  | cons k rest ih =>
    rw [List.filterMap_cons, List.filterMap_cons]
    have hk := hlook k
    rcases h1 : lookupAssoc k m1 with _ | v1 <;> rcases h2 : lookupAssoc k m2 with _ | v2 <;>
      rw [h1, h2] at hk
    · exact ih
    · exact hk.elim
    · exact hk.elim
    · exact List.Forall₂.cons ⟨rfl, hk⟩ ih

theorem forall2_sortedAssoc {α β : Type} {R : α → β → Prop}
    {m1 : List (String × α)} {m2 : List (String × β)}
    (h : List.Forall₂ (fun a b => a.1 = b.1 ∧ R a.2 b.2) m1 m2) :
    List.Forall₂ (fun a b => a.1 = b.1 ∧ R a.2 b.2) (sortedAssoc m1) (sortedAssoc m2) := by
  rw [sortedAssoc, sortedAssoc, forall2_keys h]
  exact forall2_filterMap_lookup (fun k => forall2_lookup k h) _

theorem foldlM_congr_rel {α1 α2 β ε : Type} {R : α1 → α2 → Prop}
    {f : β → α1 → Except ε β} {g : β → α2 → Except ε β}
    (hf : ∀ acc a1 a2, R a1 a2 → f acc a1 = g acc a2) :
    ∀ {l1 l2}, List.Forall₂ R l1 l2 → ∀ acc, List.foldlM f acc l1 = List.foldlM g acc l2 := by
  intro l1 l2 h
  induction h with
  | nil => intro acc; rfl
  | @cons a b r1 r2 hab _ ih =>
    intro acc
    rw [List.foldlM_cons, List.foldlM_cons, hf acc a b hab]
    rcases hstep : g acc b with e | v
    · rw [exceptErrorBind, exceptErrorBind]
    · rw [exceptOkBind, exceptOkBind]
      exact ih v

theorem extractBiome_agree {t : String} {acc : PatchMap} {nb1 nb2 : String × Biome}
    (h : nb1.1 = nb2.1 ∧ BiomeAgree nb1.2 nb2.2) :
    extractBiome t acc nb1 = extractBiome t acc nb2 := by
  rw [extractBiome, extractBiome, h.2.2.1, h.1]

theorem extractType_agree {acc : PatchMap} {e1 e2 : String × List (String × Biome)}
    (h : e1.1 = e2.1 ∧ InnerAgree e1.2 e2.2) :
    extractType acc e1 = extractType acc e2 := by
  rw [extractType, extractType, h.1]
  exact foldlM_congr_rel (R := fun a b : String × Biome => a.1 = b.1 ∧ BiomeAgree a.2 b.2)
    (f := extractBiome e2.1) (g := extractBiome e2.1)
    (fun acc2 a b hab => extractBiome_agree hab) (forall2_sortedAssoc h.2) acc

theorem extractPatches_agree {m1 m2 : ByTypeMap} (h : ByTypeAgree m1 m2) :
    extractPatches m1 = extractPatches m2 := by
  rw [extractPatches, extractPatches]
  exact foldlM_congr_rel
    (R := fun a b : String × List (String × Biome) => a.1 = b.1 ∧ InnerAgree a.2 b.2)
    (f := extractType) (g := extractType)
    (fun acc a b hab => extractType_agree hab) (forall2_sortedAssoc h) []

theorem insertAssoc_agree {n : String} {b1 b2 : Biome} (hb : BiomeAgree b1 b2) :
    ∀ {m1 m2 : List (String × Biome)}, InnerAgree m1 m2 →
      InnerAgree (insertAssoc n b1 m1) (insertAssoc n b2 m2) := by
  intro m1 m2 h
  induction h with
  | nil => exact List.Forall₂.cons ⟨rfl, hb⟩ List.Forall₂.nil
  | @cons a b r1 r2 hab hrest ih =>
    rcases a with ⟨k1, v1⟩
    rcases b with ⟨k2, v2⟩
    obtain ⟨hk12, hR⟩ := hab
    have hkk : k1 = k2 := hk12
    rw [insertAssoc, insertAssoc]
    by_cases hk : k1 = n
    · rw [if_pos hk, if_pos (hkk ▸ hk)]
      exact List.Forall₂.cons ⟨hk12, hb⟩ hrest
    · rw [if_neg hk, if_neg (hkk ▸ hk)]
      exact List.Forall₂.cons ⟨hk12, hR⟩ ih

theorem insertBiome_agree {t n : String} {b1 b2 : Biome} (hb : BiomeAgree b1 b2) :
    ∀ {m1 m2 : ByTypeMap}, ByTypeAgree m1 m2 →
      ByTypeAgree (insertBiome t n b1 m1) (insertBiome t n b2 m2) := by
  intro m1 m2 h
  induction h with
  | nil =>
    exact List.Forall₂.cons ⟨rfl, List.Forall₂.cons ⟨rfl, hb⟩ List.Forall₂.nil⟩ List.Forall₂.nil
  | @cons a b r1 r2 hab hrest ih =>
    rcases a with ⟨t1, i1⟩
    rcases b with ⟨t2, i2⟩
    obtain ⟨ht12, hI⟩ := hab
    have htt : t1 = t2 := ht12
    rw [insertBiome, insertBiome]
    by_cases ht : t1 = t
    · rw [if_pos ht, if_pos (htt ▸ ht)]
      exact List.Forall₂.cons ⟨ht12, insertAssoc_agree hb hI⟩ hrest
    · rw [if_neg ht, if_neg (htt ▸ ht)]
      exact List.Forall₂.cons ⟨ht12, hI⟩ ih

theorem loadFrom_agree :
    ∀ {fs1 fs2 : List (String × FileContent)}, FilesAgree fs1 fs2 →
      ∀ (d : List String) (m1 m2 : ByTypeMap), ByTypeAgree m1 m2 →
        LoadResultAgree (loadFrom d m1 fs1) (loadFrom d m2 fs2) := by
  intro fs1 fs2 h
  induction h with
  | nil =>
    intro d m1 m2 hm
    rw [loadFrom, loadFrom]
    exact ⟨rfl, hm⟩
  | @cons f1 f2 l1 l2 hff _ ih =>
    intro d m1 m2 hm
    rcases f1 with ⟨n1, c1⟩
    rcases f2 with ⟨n2, c2⟩
    obtain ⟨hn, hc⟩ := hff
    cases c1 with
    | malformed l c msg =>
      cases c2 with
      | malformed l' c' msg' =>
        have hc2 : l = l' ∧ c = c' ∧ msg = msg' := hc
        obtain ⟨rfl, rfl, rfl⟩ := hc2
        have hn2 : n1 = n2 := hn
        subst hn2
        rw [loadFrom, loadFrom]
        exact ih _ _ _ hm
      | record b2 => exact hc.elim
    | record b1 =>
      cases c2 with
      | malformed l' c' msg' => exact hc.elim
      | record b2 =>
        have hb : BiomeAgree b1 b2 := hc
        have hn2 : n1 = n2 := hn
        subst hn2
        obtain ⟨hbt, hbc, he1, he2⟩ := hb
        rcases hv1 : b1.enabled with _ | v1
        · rw [hv1] at he1
          cases he1
        · rcases hv2 : b2.enabled with _ | v2
          · rw [hv2] at he2
            cases he2
          · rw [loadFrom, loadFrom, hv1, hv2]
            rcases ht1 : b1.biomeType with _ | t1
            · rw [ht1] at hbt
              rw [← hbt]
              exact rfl
            · rw [ht1] at hbt
              rw [← hbt]
              exact ih _ _ _ (insertBiome_agree ⟨hbt.symm ▸ ht1, hbc, he1, he2⟩ hm)

theorem runPipeline_agree (g : String → Nat × Nat) (w : Nat → Nat)
    {fs1 fs2 : List (String × FileContent)} (h : FilesAgree fs1 fs2) :
    runPipeline g w fs1 = runPipeline g w fs2 := by
  have hload := loadFrom_agree h [] [] [] List.Forall₂.nil
  rw [runPipeline, runPipeline]
  rw [show loadAll fs1 = loadFrom [] [] fs1 from rfl,
    show loadAll fs2 = loadFrom [] [] fs2 from rfl]
  rcases h1 : loadFrom [] [] fs1 with e1 | p1 <;>
    rcases h2 : loadFrom [] [] fs2 with e2 | p2 <;>
    rw [h1, h2] at hload
  · have he : e1 = e2 := hload
    subst he
    rfl
  · exact hload.elim
  · exact hload.elim
  · rcases p1 with ⟨d1, m1⟩
    rcases p2 with ⟨d2, m2⟩
    obtain ⟨hd, hm⟩ := hload
    subst hd
    show pipelineAfterLoad g w d1 m1 = pipelineAfterLoad g w d1 m2
    rw [pipelineAfterLoad, pipelineAfterLoad, extractPatches_agree hm]

/-! ## Claim theorems -/

/-- C7: for every RGB triple with components in 0..255, `contrastingColor`
returns the white code exactly when the weighted luminance
(R·299 + G·587 + B·114)/1000 is below 123 and the black code otherwise;
black on (0,0,0) is white text, white is black text, and the gray triple
(123,123,123), whose luminance is exactly 123, resolves to black. -/
theorem contrast_threshold :
    (∀ r g b : Nat, r ≤ 255 → g ≤ 255 → b ≤ 255 →
      ((contrastingColor (r, (g, b)) = "#ffffff" ↔
          ((r : ℚ) * 299 + (g : ℚ) * 587 + (b : ℚ) * 114) / 1000 < 123) ∧
        (contrastingColor (r, (g, b)) = "#000000" ↔
          ¬ ((r : ℚ) * 299 + (g : ℚ) * 587 + (b : ℚ) * 114) / 1000 < 123))) ∧
    contrastingColor (0, (0, 0)) = "#ffffff" ∧
    contrastingColor (255, (255, 255)) = "#000000" ∧
    contrastingColor (123, (123, 123)) = "#000000" ∧
    ((123 : ℚ) * 299 + (123 : ℚ) * 587 + (123 : ℚ) * 114) / 1000 = 123 := by
  refine ⟨?_, ?_, ?_, ?_, by norm_num⟩
  · intro r g b _ _ _
    rw [contrastingColor]
    split_ifs with h
    · exact ⟨iff_of_true rfl h, iff_of_false (by decide) fun hn => hn h⟩
    · exact ⟨iff_of_false (by decide) h, iff_of_true rfl h⟩
  · rw [contrastingColor]
    norm_num
  · rw [contrastingColor]
    norm_num
  · rw [contrastingColor]
    norm_num

/-- Witness for C7 at the concrete dark triple (10,10,10). -/
theorem contrast_threshold_witness :
    (contrastingColor (10, (10, 10)) = "#ffffff" ↔
      ((10 : ℚ) * 299 + (10 : ℚ) * 587 + (10 : ℚ) * 114) / 1000 < 123) ∧
    (contrastingColor (10, (10, 10)) = "#000000" ↔
      ¬ ((10 : ℚ) * 299 + (10 : ℚ) * 587 + (10 : ℚ) * 114) / 1000 < 123) :=
  contrast_threshold.1 10 10 10 (by decide) (by decide) (by decide)

/-- C8: color normalization is idempotent: a string already starting with
the hash character is returned unchanged, any other string gets exactly
one hash prepended, and hence normalizing twice equals normalizing
once. -/
theorem colorCode_idempotent :
    ∀ s : String,
      (startswithHash s = true → colorCode s = s) ∧
      (startswithHash s = false → colorCode s = "#" ++ s) ∧
      colorCode (colorCode s) = colorCode s := by
  intro s
  refine ⟨colorCode_of_hash, colorCode_of_not_hash, ?_⟩
  rcases hs : startswithHash s with _ | _
  · rw [colorCode_of_not_hash hs]
    have hsh : startswithHash ("#" ++ s) = true := by
      rw [startswithHash, data_append_hash]
      rfl
    rw [colorCode_of_hash hsh]
  · rw [colorCode_of_hash hs, colorCode_of_hash hs]

/-- Witness for C8 at a prefixed and a bare code. -/
theorem colorCode_idempotent_witness :
    colorCode "#12ab34" = "#12ab34" ∧
    colorCode "a1b2c3" = "#" ++ "a1b2c3" ∧
    colorCode (colorCode "a1b2c3") = colorCode "a1b2c3" :=
  ⟨(colorCode_idempotent "#12ab34").1 (by decide),
   (colorCode_idempotent "a1b2c3").2.1 (by decide),
   (colorCode_idempotent "a1b2c3").2.2⟩

/-- C6: a config file that fails JSON parsing contributes exactly one
diagnostic line, built from the file name and the syntax error's line
and column, leaves the grouping untouched, and the loader continues with
the remaining files. -/
theorem malformed_file_one_diagnostic (diags : List String) (byType : ByTypeMap)
    (fileName : String) (l c : Nat) (msg : String)
    (rest : List (String × FileContent)) :
    loadFrom diags byType ((fileName, .malformed l c msg) :: rest) =
      loadFrom (diags ++ [jsonErrorMsg fileName l c msg]) byType rest ∧
    jsonErrorMsg fileName l c msg =
      "JSON error: " ++ fileName ++ ": line " ++ toString l ++ ", column " ++
        toString c ++ ": " ++ msg :=
  ⟨rfl, rfl⟩

/-- C2: on an empty input file set the run does not produce a
"no biomes found" diagnostic; it evaluates `max()` over the empty patch
mapping and dies with the uncaught `ValueError` (exit is non-zero via the
interpreter traceback, no image is produced, and no diagnostic line is
printed). -/
theorem empty_input_crashes_on_max (g : String → Nat × Nat) (w : Nat → Nat) :
    runPipeline g w [] = ⟨[], .error .valueErrorMaxEmpty⟩ := rfl

/-- C1 counterexample: a parsed record lacking `biomeType` is not
silently dropped; the run aborts with an uncaught `KeyError` before the
following well-formed file can contribute anything. -/
theorem missing_biomeType_cex :
    runPipeline exGetsize exWrap exFilesNoType =
      ⟨[], .error (.keyError "biomeType")⟩ := rfl

/-- C1 (amended): whenever loading reaches a parsed record that has
`enabled` but lacks `biomeType`, the grouping lookup raises an uncaught
`KeyError` for the key biomeType, aborting the whole run with the
diagnostics printed so far; the record's colors never reach rendering and
no later file is processed. -/
theorem missing_biomeType_aborts (g : String → Nat × Nat) (w : Nat → Nat)
    (pre rest : List (String × FileContent)) (fileName : String) (b : Biome)
    (d : List String) (m : ByTypeMap) (v : Bool)
    (hpre : loadFrom [] [] pre = .ok (d, m))
    (hen : b.enabled = some v) (hbt : b.biomeType = none) :
    runPipeline g w (pre ++ (fileName, .record b) :: rest) =
      ⟨d, .error (.keyError "biomeType")⟩ := by
  have hstep : loadFrom [] [] (pre ++ (fileName, .record b) :: rest) =
      .error (d, .keyError "biomeType") := by
    rw [loadFrom_append, hpre]
    show loadFrom d m ((fileName, .record b) :: rest) = _
    rw [loadFrom, hen, hbt]
  rw [runPipeline,
    show loadAll (pre ++ (fileName, .record b) :: rest) =
      loadFrom [] [] (pre ++ (fileName, .record b) :: rest) from rfl,
    hstep]

/-- Witness for C1: one well-formed file followed by a record without
`biomeType`, aborting the run. -/
theorem missing_biomeType_aborts_witness :
    runPipeline exGetsize exWrap
      ([("/w/settings/biomes/land/Forest.json", .record exForest)] ++
        ("/w/settings/biomes/x/alpha.json", .record exNoType) :: []) =
      ⟨[], .error (.keyError "biomeType")⟩ :=
  missing_biomeType_aborts exGetsize exWrap
    [("/w/settings/biomes/land/Forest.json", .record exForest)] []
    "/w/settings/biomes/x/alpha.json" exNoType
    [] [("LAND", [("Forest", exForest)])] true (by decide) (by decide) (by decide)

/-- C9 counterexample: the extractor happily emits a patch whose
normalized color fails the hash-plus-six-hex-digits pattern, since
normalization validates nothing. -/
theorem normalized_color_pattern_cex :
    extractPatches [("LAND", [("Bad", exBadColor)])] =
      .ok [("LAND", [⟨"Bad", "#zzz"⟩])] ∧
    matchesHashHex6 "#zzz" = false := by decide

/-- C9 (amended): provided every color code in the loaded records is six
hex digits optionally prefixed with a hash (the input format the
specification admits), every patch the extractor emits has a normalized
color matching hash plus six hex digits; normalization itself performs no
validation, so the restriction on the input is what makes the invariant
hold. -/
theorem normalized_color_pattern_of_valid_input (byType : ByTypeMap) (bps : PatchMap)
    (hv : ∀ e ∈ byType, ∀ nb ∈ e.2, ∀ c ∈ nb.2.biomeColors.getD [], validColorStr c = true)
    (he : extractPatches byType = .ok bps) :
    ∀ e ∈ bps, ∀ p ∈ e.2, matchesHashHex6 p.biomeColor = true :=
  extractPatches_valid hv he

/-- Witness for C9: a patch of the concrete extraction output matches the
pattern. -/
theorem normalized_color_pattern_witness :
    matchesHashHex6 (Patch.biomeColor ⟨"Desert", "#a0b0c0"⟩) = true :=
  normalized_color_pattern_of_valid_input exByType exBps (by decide) (by decide)
    ("ARID", [⟨"Desert", "#a0b0c0"⟩, ⟨"Desert", "#d0e0f0"⟩, ⟨"Desert", "#ffffff"⟩])
    (by decide) ⟨"Desert", "#a0b0c0"⟩ (by decide)

/-- C3: for every non-empty extraction output, the total row count the
layout computes (by ceiling-dividing each type's patch count by
`wrapColumns`) equals the sum over biome types of the ceiling division of
the patch count by `columns = min maxPatches wrapColumns`, and the canvas
dimensions are 1 + firstColumnWidth + patchWidth·columns by
1 + patchHeight·rows. -/
theorem total_rows_and_canvas_dims (g : String → Nat × Nat) (wrapColumns : Nat)
    (byType : ByTypeMap) (bps : PatchMap) (maxP : Nat)
    (hex : extractPatches byType = .ok bps)
    (hw : 1 ≤ wrapColumns)
    (hmax : maxList (bps.map fun e => e.2.length) = some maxP) :
    (planLayout g wrapColumns maxP bps).columns = min maxP wrapColumns ∧
    (planLayout g wrapColumns maxP bps).rows =
      (bps.map fun e =>
        (e.2.length + min maxP wrapColumns - 1) / min maxP wrapColumns).sum ∧
    (planLayout g wrapColumns maxP bps).imageWidth =
      1 + (planLayout g wrapColumns maxP bps).firstColumnWidth +
        (planLayout g wrapColumns maxP bps).patchWidth * min maxP wrapColumns ∧
    (planLayout g wrapColumns maxP bps).imageHeight =
      1 + (planLayout g wrapColumns maxP bps).patchHeight *
        (bps.map fun e =>
          (e.2.length + min maxP wrapColumns - 1) / min maxP wrapColumns).sum := by
  have hne := extractPatches_entries_nonempty hex
  have hrows : (planLayout g wrapColumns maxP bps).rows =
      (bps.map fun e =>
        (e.2.length + min maxP wrapColumns - 1) / min maxP wrapColumns).sum := by
    have h1 : (planLayout g wrapColumns maxP bps).rows = (computeRows wrapColumns bps).2 := rfl
    rw [h1, computeRows_snd]
    refine congrArg List.sum (List.map_congr_left ?_)
    intro e hemem
    have hlen1 : 1 ≤ e.2.length := List.length_pos.mpr (hne e hemem)
    have hlen2 : e.2.length ≤ maxP :=
      maxList_ge hmax _ (List.mem_map_of_mem _ hemem)
    exact wrapDiv_eq_ceilDiv hlen1 hlen2 hw
  refine ⟨rfl, hrows, rfl, ?_⟩
  rw [← hrows]
  rfl

/-- Witness for C3 at the concrete extraction output of the example
grouping, with wrap threshold 9 and maximum patch count 3. -/
theorem total_rows_and_canvas_dims_witness :
    (planLayout exGetsize 9 3 exBps).columns = min 3 9 ∧
    (planLayout exGetsize 9 3 exBps).rows =
      (exBps.map fun e => (e.2.length + min 3 9 - 1) / min 3 9).sum ∧
    (planLayout exGetsize 9 3 exBps).imageWidth =
      1 + (planLayout exGetsize 9 3 exBps).firstColumnWidth +
        (planLayout exGetsize 9 3 exBps).patchWidth * min 3 9 ∧
    (planLayout exGetsize 9 3 exBps).imageHeight =
      1 + (planLayout exGetsize 9 3 exBps).patchHeight *
        (exBps.map fun e => (e.2.length + min 3 9 - 1) / min 3 9).sum :=
  total_rows_and_canvas_dims exGetsize 9 exByType exBps 3
    (by decide) (by decide) (by decide)

/-- C5: the extraction output of any loader output lists biome types in
strictly increasing lexicographic order, each type's patch list being the
concatenation over its biome names in lexicographic order of that biome's
normalized colors in source order; and the renderer's iteration in sorted
key order visits exactly that list in the same order. -/
theorem extraction_lex_order (files : List (String × FileContent))
    (d : List String) (byType : ByTypeMap) (bps : PatchMap)
    (hl : loadAll files = .ok (d, byType))
    (he : extractPatches byType = .ok bps) :
    bps = extractPatchesSpec byType ∧
    bps.Pairwise (fun a b => a.1 < b.1) ∧
    sortedAssoc bps = bps := by
  have hnd := loadFrom_nodup files [] [] d byType hl List.nodup_nil
    (by intro e he2; cases he2)
  have hspec : bps = extractPatchesSpec byType := extractPatches_spec hnd.1 he
  have hpw : bps.Pairwise fun a b => a.1 < b.1 := by
    rw [hspec]
    exact extractPatchesSpec_pairwise hnd.1
  exact ⟨hspec, hpw, sortedAssoc_eq_self hpw⟩

/-- Witness for C5 at the concrete three-file input. -/
theorem extraction_lex_order_witness :
    exBps = extractPatchesSpec exByType ∧
    exBps.Pairwise (fun a b => a.1 < b.1) ∧
    sortedAssoc exBps = exBps :=
  extraction_lex_order exFiles [] exByType exBps (by decide) (by decide)

/-- C10: the value of the `enabled` flag has no influence on the run:
two input sets that differ only in the `enabled` values of some records
produce identical outputs (diagnostics, grouping, patches, layout and
draw calls alike), disabled biomes rendering exactly like enabled ones;
whereas a record missing the `enabled` key altogether aborts the run
with an uncaught `KeyError` instead of being skipped. -/
theorem enabled_flag_no_influence :
    (∀ (g : String → Nat × Nat) (w : Nat → Nat)
        (fs1 fs2 : List (String × FileContent)),
        FilesAgree fs1 fs2 → runPipeline g w fs1 = runPipeline g w fs2) ∧
    (∀ (g : String → Nat × Nat) (w : Nat → Nat)
        (pre rest : List (String × FileContent)) (fileName : String) (b : Biome)
        (d : List String) (m : ByTypeMap),
        loadFrom [] [] pre = .ok (d, m) → b.enabled = none →
        runPipeline g w (pre ++ (fileName, .record b) :: rest) =
          ⟨d, .error (.keyError "enabled")⟩) := by
  constructor
  · intro g w fs1 fs2 h
    exact runPipeline_agree g w h
  · intro g w pre rest fileName b d m hpre hen
    have hstep : loadFrom [] [] (pre ++ (fileName, .record b) :: rest) =
        .error (d, .keyError "enabled") := by
      rw [loadFrom_append, hpre]
      show loadFrom d m ((fileName, .record b) :: rest) = _
      rw [loadFrom, hen]
    rw [runPipeline,
      show loadAll (pre ++ (fileName, .record b) :: rest) =
        loadFrom [] [] (pre ++ (fileName, .record b) :: rest) from rfl,
      hstep]

/-- Witness for C10: toggling one `enabled` flag leaves the whole run
output unchanged, and a record without `enabled` aborts the run. -/
theorem enabled_flag_no_influence_witness :
    runPipeline exGetsize exWrap exFiles = runPipeline exGetsize exWrap exFilesToggled ∧
    runPipeline exGetsize exWrap
      ([] ++ ("/w/settings/biomes/x/noe.json", .record exNoEnabled) :: []) =
      ⟨[], .error (.keyError "enabled")⟩ :=
  ⟨enabled_flag_no_influence.1 exGetsize exWrap exFiles exFilesToggled
    (List.Forall₂.cons ⟨rfl, ⟨rfl, rfl, rfl, rfl⟩⟩
      (List.Forall₂.cons ⟨rfl, ⟨rfl, rfl, rfl, rfl⟩⟩
        (List.Forall₂.cons ⟨rfl, ⟨rfl, rfl, rfl, rfl⟩⟩ List.Forall₂.nil))),
   enabled_flag_no_influence.2 exGetsize exWrap [] [] "/w/settings/biomes/x/noe.json"
     exNoEnabled [] [] rfl rfl⟩
